import Mathlib

/-!
Shallow embedding of the citation, bibliography, review, chunking and
retrieval subsystems of the ba-agent repository, together with proofs of
the specified properties.

Python strings are modelled as `String` or `List Char`, Python dicts with
insertion order (such as `BibliographyManager._order`) as association
lists, and fallible code by `Option`.
-/

set_option maxRecDepth 4000

/-! ### Citation labels and the bibliography manager

Embeds `CitationLabel` from `src/ba_agent/config.py` and
`BibliographyManager.cite` from `src/ba_agent/bib.py`.
-/

/-- Embedding of `CitationLabel` (config.py): one citation occurrence. -/
structure CitationLabel where
  referenceId : String
  page : Option Nat

/-- Embedding of `CitationLabel.label` (config.py lines 18-23). -/
def CitationLabel.label (c : CitationLabel) : String :=
  match c.page with
  | none => "[" ++ c.referenceId ++ "]"
  | some p => "[" ++ c.referenceId ++ ", p. " ++ Nat.repr p ++ "]"

/-- The `BibliographyManager._order` dict: an insertion-ordered mapping
from source id to reference number, modelled as an association list. -/
abbrev CiteOrder := List (String × Nat)

/-- Embedding of the registry update performed by `BibliographyManager.cite`
(bib.py lines 39-47): look the source id up; if absent, assign number
`len(order) + 1` and append. Returns the reference number and new state. -/
def citeStep (order : CiteOrder) (sourceId : String) : Nat × CiteOrder :=
  match order.lookup sourceId with
  | some n => (n, order)
  | none => (order.length + 1, order ++ [(sourceId, order.length + 1)])

/-- Embedding of `BibliographyManager.cite`: returns the rendered label
(via `CitationLabel.label` with `reference_id = str(reference_number)`)
and the updated registry state. -/
def cite (order : CiteOrder) (sourceId : String) (page : Option Nat) :
    String × CiteOrder :=
  ((CitationLabel.mk (Nat.repr (citeStep order sourceId).1) page).label,
    (citeStep order sourceId).2)

/-- Runs a sequence of `cite` calls (ignoring pages, which do not affect the
registry) from a given registry state. -/
def runCite (order : CiteOrder) (calls : List String) : CiteOrder :=
  calls.foldl (fun o s => (citeStep o s).2) order

/-- The list of distinct source ids in first-occurrence order, starting
from an accumulator of already-seen ids. -/
def dedupFirst (acc : List String) (calls : List String) : List String :=
  calls.foldl (fun a s => if s ∈ a then a else a ++ [s]) acc

/-- Pairs the elements of a list with consecutive numbers starting at `n`. -/
def enum1 : List String → Nat → CiteOrder
  | [], _ => []
  | s :: rest, n => (s, n) :: enum1 rest (n + 1)

theorem enum1_length (l : List String) (n : Nat) :
    (enum1 l n).length = l.length := by
  induction l generalizing n with
  | nil => rfl
  | cons s rest ih => simp [enum1, ih]

theorem enum1_append (l : List String) (x : String) (n : Nat) :
    enum1 (l ++ [x]) n = enum1 l n ++ [(x, n + l.length)] := by
  induction l generalizing n with
  | nil => simp [enum1]
  | cons s rest ih =>
      simp only [List.cons_append, enum1, List.length_cons, List.append_eq]
      rw [ih]
      have harith : n + 1 + rest.length = n + (rest.length + 1) := by omega
      rw [harith]

theorem lookup_enum1_eq_none (l : List String) (n : Nat) (x : String) :
    (enum1 l n).lookup x = none ↔ x ∉ l := by
  induction l generalizing n with
  | nil => simp [enum1]
  | cons s rest ih =>
      by_cases hx : x = s
      · subst hx
        simp [enum1, List.lookup]
      · have hbeq : (x == s) = false := beq_eq_false_iff_ne.mpr hx
        simp only [enum1, List.lookup, hbeq, List.mem_cons]
        rw [ih]
        constructor
        · intro h hm
          rcases hm with h1 | h2
          · exact hx h1
          · exact h h2
        · intro h hm
          exact h (Or.inr hm)

theorem map_snd_enum1 (l : List String) (n : Nat) :
    (enum1 l n).map Prod.snd = List.range' n l.length := by
  induction l generalizing n with
  | nil => rfl
  | cons s rest ih => simp [enum1, ih, List.range'_succ]

theorem foldl_citeStep_enum1 (calls : List String) (l : List String) :
    runCite (enum1 l 1) calls = enum1 (dedupFirst l calls) 1 := by
  induction calls generalizing l with
  | nil => rfl
  | cons c cs ih =>
      show runCite ((citeStep (enum1 l 1) c).2) cs
          = enum1 (dedupFirst (if c ∈ l then l else l ++ [c]) cs) 1
      by_cases hc : c ∈ l
      · have hlk : ¬((enum1 l 1).lookup c = none) := fun h =>
          (lookup_enum1_eq_none l 1 c).mp h hc
        rcases h : (enum1 l 1).lookup c with _ | n
        · exact absurd h hlk
        · rw [if_pos hc]
          have hstep : (citeStep (enum1 l 1) c).2 = enum1 l 1 := by
            simp [citeStep, h]
          rw [hstep]
          exact ih l
      · have hlk : (enum1 l 1).lookup c = none :=
          (lookup_enum1_eq_none l 1 c).mpr hc
        rw [if_neg hc]
        have hstep : (citeStep (enum1 l 1) c).2 = enum1 (l ++ [c]) 1 := by
          simp only [citeStep, hlk]
          rw [enum1_append, enum1_length]
          congr 3
          omega
        rw [hstep]
        exact ih (l ++ [c])

/-- C1: for every sequence of `cite` calls on one session, the registry maps
the n-th distinct source id cited to the number n: the final registry equals
the first-occurrence deduplication of the calls paired with 1, 2, ..., and
the assigned numbers form the contiguous sequence `1..N` where `N` is the
number of distinct cited ids, with no gaps, duplicates or renumbering. -/
theorem c1_citation_numbering (calls : List String) :
    runCite [] calls = enum1 (dedupFirst [] calls) 1 ∧
    (runCite [] calls).map Prod.snd
      = List.range' 1 (dedupFirst [] calls).length := by
  have h : runCite [] calls = enum1 (dedupFirst [] calls) 1 := by
    simpa [enum1] using foldl_citeStep_enum1 calls []
  refine ⟨h, ?_⟩
  rw [h]
  exact map_snd_enum1 _ 1

theorem lookup_append_of_some (o z : CiteOrder) (x : String) (n : Nat)
    (h : o.lookup x = some n) : (o ++ z).lookup x = some n := by
  induction o with
  | nil => simp [List.lookup] at h
  | cons p rest ih =>
      rcases p with ⟨k, v⟩
      by_cases hk : x = k
      · subst hk
        simp [List.lookup] at h ⊢
        exact h
      · have hbeq : (x == k) = false := beq_eq_false_iff_ne.mpr hk
        simp only [List.cons_append, List.lookup, hbeq] at h ⊢
        exact ih h

theorem lookup_append_self (o : CiteOrder) (x : String) (n : Nat)
    (h : o.lookup x = none) : (o ++ [(x, n)]).lookup x = some n := by
  induction o with
  | nil => simp [List.lookup]
  | cons p rest ih =>
      rcases p with ⟨k, v⟩
      by_cases hk : x = k
      · subst hk
        simp [List.lookup] at h
      · have hbeq : (x == k) = false := beq_eq_false_iff_ne.mpr hk
        simp only [List.cons_append, List.lookup, hbeq] at h ⊢
        exact ih h

theorem citeStep_lookup_after (o : CiteOrder) (x : String) :
    ((citeStep o x).2).lookup x = some (citeStep o x).1 := by
  rcases h : o.lookup x with _ | n
  · simp only [citeStep, h]
    exact lookup_append_self o x (o.length + 1) h
  · simp [citeStep, h]

theorem citeStep_lookup_stable (o : CiteOrder) (x y : String) (n : Nat)
    (h : o.lookup x = some n) : ((citeStep o y).2).lookup x = some n := by
  rcases hy : o.lookup y with _ | m
  · simp only [citeStep, hy]
    exact lookup_append_of_some o _ x n h
  · simpa [citeStep, hy] using h

theorem runCite_lookup_stable (calls : List String) (o : CiteOrder)
    (x : String) (n : Nat) (h : o.lookup x = some n) :
    (runCite o calls).lookup x = some n := by
  induction calls generalizing o with
  | nil => exact h
  | cons c cs ih =>
      exact ih ((citeStep o c).2) (citeStep_lookup_stable o x c n h)

theorem citeStep_num_of_lookup (o : CiteOrder) (x : String) (n : Nat)
    (h : o.lookup x = some n) : (citeStep o x).1 = n := by
  simp [citeStep, h]

/-- C2: `cite(x, p)` returns exactly the string `"[N]"` when the page is
absent and `"[N, p. P]"` when it is present, where `N` is the session
reference number of `x`; and a later `cite(x, p2)` call, after any
intervening calls, returns a label with the same leading number `N`. -/
theorem c2_label_shape (order : CiteOrder) (x : String) (p1 p2 : Option Nat)
    (mid : List String) :
    (cite order x p1).1
        = (match p1 with
           | none => "[" ++ Nat.repr (citeStep order x).1 ++ "]"
           | some pg =>
              "[" ++ Nat.repr (citeStep order x).1 ++ ", p. "
                ++ Nat.repr pg ++ "]") ∧
    (cite (runCite (cite order x p1).2 mid) x p2).1
        = (match p2 with
           | none => "[" ++ Nat.repr (citeStep order x).1 ++ "]"
           | some pg =>
              "[" ++ Nat.repr (citeStep order x).1 ++ ", p. "
                ++ Nat.repr pg ++ "]") := by
  have hsame : (citeStep (runCite ((citeStep order x).2) mid) x).1
      = (citeStep order x).1 := by
    have h1 : ((citeStep order x).2).lookup x = some (citeStep order x).1 :=
      citeStep_lookup_after order x
    have h2 := runCite_lookup_stable mid _ x _ h1
    exact citeStep_num_of_lookup _ x _ h2
  constructor
  · cases p1 <;> rfl
  · cases p2 <;> simp [cite, CitationLabel.label, hsame]

/-! ### Minimal citeproc stub (src/citeproc/__init__.py, source/json.py) -/

/-- Embedding of a CSL-JSON author record as consumed by `_format_names`. -/
structure Author where
  family : Option String
  given : Option String
  literal : Option String
deriving DecidableEq

/-- Embedding of a CSL-JSON source record as consumed by `_format_entry`;
absent dict keys are `none`. -/
structure Entry where
  id : String
  author : Option (List Author)
  title : Option String
  containerTitle : Option String
  publisher : Option String
  issuedRaw : Option String
deriving DecidableEq

/-- Python truthiness of an optional string: `None` and `""` are falsy. -/
def truthy : Option String → Bool
  | none => false
  | some s => !(s == "")

/-- Python `str.strip()` on a list of characters. -/
def stripChars (l : List Char) : List Char :=
  ((l.dropWhile Char.isWhitespace).reverse.dropWhile Char.isWhitespace).reverse

/-- Python `str.strip()`. -/
def pyStrip (s : String) : String := ⟨stripChars s.toList⟩

/-- One author's contribution inside `_format_names`: a truthy literal name
is used as-is; otherwise given and family (each replaced by `""` when falsy)
are joined by `"".join(filter(None, ...))`, i.e. plain concatenation, and
stripped. -/
def authorPart (a : Author) : String :=
  if truthy a.literal then a.literal.getD ""
  else
    pyStrip ((if truthy a.given then a.given.getD "" else "")
      ++ (if truthy a.family then a.family.getD "" else ""))

/-- Embedding of `CitationStylesBibliography._format_names` (citeproc
`__init__.py` lines 57-77): non-list author data yields "Unbekannt", falsy
parts are filtered out, the rest joined with " and ", and an empty result
falls back to "Unbekannt". -/
def formatNames (entry : Entry) : String :=
  match entry.author with
  | none => "Unbekannt"
  | some authors =>
    let kept := (authors.map authorPart).filter (fun p => !(p == ""))
    let joined := String.intercalate " and " kept
    if joined == "" then "Unbekannt" else joined

/-- Embedding of `CitationStylesBibliography._format_entry` (citeproc
`__init__.py` lines 79-94): author names, the quoted title (default
"Ohne Titel"), then container-title-or-publisher and the issued year when
truthy, joined with ", ". -/
def formatEntry (entry : Entry) : String :=
  let author := formatNames entry
  let title := entry.title.getD "Ohne Titel"
  let container : Option String :=
    if truthy entry.containerTitle then entry.containerTitle
    else entry.publisher
  let year := match entry.issuedRaw with
    | some r => r
    | none => ""
  let components := [author, "“" ++ title ++ "”"]
    ++ (if truthy container then [container.getD ""] else [])
    ++ (if !(year == "") then [year] else [])
  String.intercalate ", " components

/-- The placeholder record `{"id": key}` returned for a missing key. -/
def defaultEntry (key : String) : Entry := ⟨key, none, none, none, none, none⟩

/-- Embedding of `CiteProcJSON.__init__` plus `get_reference` (source/json.py
lines 11-15): items are keyed by id with later duplicates overwriting
earlier ones, and a missing key yields the bare `{"id": key}` record. -/
def getReference (items : List Entry) (key : String) : Entry :=
  match items.reverse.find? (fun e => e.id == key) with
  | some e => e
  | none => defaultEntry key

/-- C8 counterexample: for the unknown source id "q7" the rendered entry is
"Unbekannt, “Ohne Titel”" — the title-equivalent is the fixed placeholder
"Ohne Titel", not the raw id "q7" as the claim states. -/
theorem c8_counterexample :
    formatEntry (getReference [] "q7") = "Unbekannt, “Ohne Titel”" ∧
    formatEntry (getReference [] "q7") ≠ "Unbekannt, “q7”" := by
  decide

/-- C8 (amended): citing a source id with no matching metadata record still
succeeds — the registry update and label rendering never consult metadata
and assign the normal next number — and the bibliography entry rendered for
that source uses the placeholder author "Unbekannt" with the fixed
placeholder title "Ohne Titel" (the raw id is kept only as the entry's id,
not rendered), rather than the operation failing. -/
theorem c8_missing_metadata (items : List Entry) (key : String)
    (order : CiteOrder) (p : Option Nat)
    (h : ∀ e ∈ items, e.id ≠ key) :
    formatEntry (getReference items key) = "Unbekannt, “Ohne Titel”" ∧
    (citeStep order key).1 = (order.lookup key).getD (order.length + 1) ∧
    (cite order key p).1
      = (CitationLabel.mk (Nat.repr (citeStep order key).1) p).label := by
  refine ⟨?_, ?_, rfl⟩
  · have hfind : items.reverse.find? (fun e => e.id == key) = none := by
      rw [List.find?_eq_none]
      intro e he
      simp only [beq_iff_eq]
      exact h e (List.mem_reverse.mp he)
    rw [getReference, hfind]
    rfl
  · rcases hl : order.lookup key with _ | n
    · simp [citeStep, hl]
    · simp [citeStep, hl]

theorem c8_missing_metadata_witness :
    (∀ e ∈ ([] : List Entry), e.id ≠ "q7") ∧
    (formatEntry (getReference [] "q7") = "Unbekannt, “Ohne Titel”" ∧
     (citeStep [] "q7").1
       = (([] : CiteOrder).lookup "q7").getD (([] : CiteOrder).length + 1) ∧
     (cite [] "q7" none).1
       = (CitationLabel.mk (Nat.repr (citeStep [] "q7").1) none).label) :=
  ⟨by simp, c8_missing_metadata [] "q7" [] none (by simp)⟩

/-- C9: evaluation of `_format_names` on concrete CSL author data. Authors
are joined with " and ", a truthy literal is preferred, and missing author
data falls back to "Unbekannt", as the claim states; but a given/family
pair renders as the concatenation "J.Müller" with no separating space,
contradicting the specified "given, space, family" form "J. Müller". -/
theorem c9_format_names_eval :
    formatNames ⟨"doc1",
        some [⟨some "Müller", some "J.", none⟩, ⟨some "Klein", some "A.", none⟩],
        none, none, none, none⟩ = "J.Müller and A.Klein" ∧
    formatNames ⟨"doc1", some [⟨some "Müller", some "J.", none⟩],
        none, none, none, none⟩ ≠ "J. Müller" ∧
    formatNames ⟨"d", none, none, none, none, none⟩ = "Unbekannt" ∧
    formatNames ⟨"d", some [⟨some "X", some "Y", some "Org Name"⟩],
        none, none, none, none⟩ = "Org Name" := by
  decide

/-! ### Compliance reviewer (src/ba_agent/review.py)

`CITATION_PATTERN = \[(\d+)(?:, p\. (\d+))?\]` is embedded as a
deterministic parser; since the digit groups are each followed by a
non-digit literal, greedy matching with backtracking coincides with
maximal-munch digit scanning, and `finditer` is a left-to-right scan
emitting non-overlapping leftmost matches.
-/

/-- Python `int` on a string of ASCII digits. -/
def digitsToNat (ds : List Char) : Nat :=
  ds.foldl (fun n c => n * 10 + (c.toNat - 48)) 0

/-- One `CITATION_PATTERN` match: the full matched text (group 0), the
reference-number digits (group 1) and the optional page digits (group 2). -/
structure CMatch where
  matched : List Char
  numTxt : List Char
  pageTxt : Option (List Char)
deriving DecidableEq

/-- The integer value of the reference-number group. -/
def CMatch.num (m : CMatch) : Nat := digitsToNat m.numTxt

/-- Attempts to match `CITATION_PATTERN` at the head of the input,
returning the match and the remaining input. -/
def parseCitation : List Char → Option (CMatch × List Char)
  | '[' :: rest =>
    if (rest.takeWhile Char.isDigit).isEmpty then none
    else
      match rest.dropWhile Char.isDigit with
      | ']' :: r2 =>
        some (⟨'[' :: rest.takeWhile Char.isDigit ++ [']'],
          rest.takeWhile Char.isDigit, none⟩, r2)
      | ',' :: ' ' :: 'p' :: '.' :: ' ' :: r2 =>
        if (r2.takeWhile Char.isDigit).isEmpty then none
        else
          match r2.dropWhile Char.isDigit with
          | ']' :: r4 =>
            some (⟨'[' :: rest.takeWhile Char.isDigit ++ ',' :: ' ' :: 'p'
                :: '.' :: ' ' :: r2.takeWhile Char.isDigit ++ [']'],
              rest.takeWhile Char.isDigit, some (r2.takeWhile Char.isDigit)⟩,
              r4)
          | _ => none
      | _ => none
  | _ => none

/-- Fuel-indexed scan underlying `finditer`; on a failed match the scan
advances one character. The fuel is an upper bound on the characters left,
sufficient because every step consumes at least one character. -/
def findCitationsGo : Nat → List Char → List CMatch
  | 0, _ => []
  | fuel + 1, cs =>
    match parseCitation cs with
    | some (m, rest) => m :: findCitationsGo fuel rest
    | none =>
      match cs with
      | [] => []
      | _ :: t => findCitationsGo fuel t

/-- Embedding of `CITATION_PATTERN.finditer`: all non-overlapping matches
from left to right. -/
def findCitations (cs : List Char) : List CMatch := findCitationsGo cs.length cs

/-- A review warning as produced by `Reviewer` (code, message, context). -/
structure Warning where
  code : String
  message : String
  context : Option String
deriving DecidableEq

/-- Fuel-indexed scan underlying `re.split((?<=[.!?])\s+, text)`: a maximal
whitespace run whose preceding character is `.`, `!` or `?` separates two
parts; other characters accumulate into the current part. -/
def splitGo : Nat → Option Char → List Char → List Char → List (List Char)
  | _, _, acc, [] => [acc.reverse]
  | 0, _, acc, _ => [acc.reverse]
  | fuel + 1, prev, acc, c :: rest =>
    if (prev = some '.' ∨ prev = some '!' ∨ prev = some '?')
        ∧ Char.isWhitespace c then
      acc.reverse ::
        splitGo fuel (some (((c :: rest).takeWhile Char.isWhitespace).getLastD c))
          [] ((c :: rest).dropWhile Char.isWhitespace)
    else splitGo fuel (some c) (c :: acc) rest

/-- Embedding of the sentence split in `_check_citation_presence`. -/
def splitSentences (cs : List Char) : List (List Char) := splitGo cs.length none [] cs

/-- Message of a `missing-citation` warning. -/
def missingMsg : String := "Satz ohne IEEE-Zitation gefunden."

/-- Embedding of `Reviewer._check_citation_presence` (review.py lines
29-45): stripped nonempty sentence fragments that do not start (lowercased)
with "abb." must contain a citation match. -/
def checkPresence (text : List Char) : List Warning :=
  let sentences := ((splitSentences text).map stripChars).filter
    (fun s => !s.isEmpty)
  sentences.filterMap fun s =>
    if ("abb.".toList).isPrefixOf (s.map Char.toLower) then none
    else if !(findCitations s).isEmpty then none
    else some ⟨"missing-citation", missingMsg, some (String.mk s)⟩

/-- Python `str(list_of_ints)`, the context rendering of sequence warnings. -/
def pyIntListRepr (l : List Nat) : String :=
  "[" ++ String.intercalate ", " (l.map Nat.repr) ++ "]"

/-- All citation numbers of a text in document order. -/
def citationNumbers (text : List Char) : List Nat :=
  (findCitations text).map CMatch.num

/-- Message of a `sequence-error` warning. -/
def seqMsg : String := "Zitationsnummern sind nicht fortlaufend ohne Lücken."

/-- Message of a `duplicate-reference` warning. -/
def dupMsg : String := "Zitationsnummer wird mehrfach verwendet."

/-- Embedding of `Reviewer._check_sequence` (review.py lines 47-62): the
number list must equal `list(range(1, numbers[-1] + 1))`, and repeated
numbers yield a `duplicate-reference` warning. -/
def checkSequence (text : List Char) : List Warning :=
  let numbers := citationNumbers text
  if numbers.isEmpty then []
  else
    (if numbers ≠ List.range' 1 (numbers.getLastD 0) then
      [⟨"sequence-error", seqMsg, some (pyIntListRepr numbers)⟩]
    else [])
    ++ (if numbers.dedup.length ≠ numbers.length then
      [⟨"duplicate-reference", dupMsg, some (pyIntListRepr numbers)⟩]
    else [])

/-- Message of a `format-error` warning. -/
def formatMsg : String := "Seitenzahlen müssen als \x27p.\x27 angegeben werden."

/-- Embedding of `Reviewer._check_format` (review.py lines 72-81): a match
whose page group is truthy and whose full text does not end with the page
digits followed by a closing bracket is flagged. -/
def checkFormat (text : List Char) : List Warning :=
  (findCitations text).filterMap fun m =>
    match m.pageTxt with
    | some pd =>
      if !pd.isEmpty ∧ ¬((pd ++ [']']).isSuffixOf m.matched) then
        some ⟨"format-error", formatMsg, some (String.mk m.matched)⟩
      else none
    | none => none

/-- Embedding of `Reviewer.review`: presence, sequence and format checks
appended in order. -/
def review (text : List Char) : List Warning :=
  checkPresence text ++ checkSequence text ++ checkFormat text

theorem parseCitation_shape (cs : List Char) (m : CMatch) (rest : List Char)
    (h : parseCitation cs = some (m, rest)) :
    m.pageTxt = none ∨
    ∃ pd, m.pageTxt = some pd ∧
      m.matched
        = ('[' :: m.numTxt ++ [',', ' ', 'p', '.', ' ']) ++ (pd ++ [']']) := by
  unfold parseCitation at h
  split at h
  · split at h
    · exact absurd h (by simp)
    · split at h
      · obtain ⟨rfl, rfl⟩ := Prod.mk.injEq .. ▸ Option.some.inj h
        left
        rfl
      · split at h
        · exact absurd h (by simp)
        · split at h
          · obtain ⟨rfl, rfl⟩ := Prod.mk.injEq .. ▸ Option.some.inj h
            right
            refine ⟨_, rfl, ?_⟩
            simp
          · exact absurd h (by simp)
      · exact absurd h (by simp)
  · exact absurd h (by simp)

theorem findCitationsGo_succ (fuel : Nat) (cs : List Char) :
    findCitationsGo (fuel + 1) cs
      = match parseCitation cs with
        | some (m, rest) => m :: findCitationsGo fuel rest
        | none =>
          match cs with
          | [] => []
          | _ :: t => findCitationsGo fuel t := rfl

theorem findCitationsGo_shape (fuel : Nat) (cs : List Char) (m : CMatch)
    (hm : m ∈ findCitationsGo fuel cs) :
    m.pageTxt = none ∨
    ∃ pd, m.pageTxt = some pd ∧
      m.matched
        = ('[' :: m.numTxt ++ [',', ' ', 'p', '.', ' ']) ++ (pd ++ [']']) := by
  induction fuel generalizing cs with
  | zero => simp [findCitationsGo] at hm
  | succ fuel ih =>
      rw [findCitationsGo_succ] at hm
      rcases hp : parseCitation cs with _ | ⟨m0, rest⟩
      · rw [hp] at hm
        cases cs with
        | nil => simp at hm
        | cons c t => exact ih t hm
      · rw [hp] at hm
        simp only [List.mem_cons] at hm
        rcases hm with rfl | hm
        · exact parseCitation_shape cs m rest hp
        · exact ih rest hm

theorem checkFormat_eq_nil (text : List Char) : checkFormat text = [] := by
  rw [checkFormat, List.filterMap_eq_nil_iff]
  intro m hm
  rcases findCitationsGo_shape _ _ m hm with hnone | ⟨pd, hpd, hshape⟩
  · simp only [hnone]
  · have hsfx : (pd ++ [']']).isSuffixOf m.matched = true := by
      rw [hshape]
      exact List.isSuffixOf_iff_suffix.mpr (List.suffix_append _ _)
    simp [hpd, hsfx]

theorem checkPresence_code (t : List Char) (w : Warning)
    (hw : w ∈ checkPresence t) : w.code = "missing-citation" := by
  rw [checkPresence] at hw
  simp only [List.mem_filterMap] at hw
  obtain ⟨s, _, hf⟩ := hw
  split at hf
  · exact absurd hf (by simp)
  · split at hf
    · exact absurd hf (by simp)
    · cases Option.some.inj hf
      rfl

theorem checkSequence_code (t : List Char) (w : Warning)
    (hw : w ∈ checkSequence t) :
    w.code = "sequence-error" ∨ w.code = "duplicate-reference" := by
  rw [checkSequence] at hw
  split at hw
  · simp at hw
  · simp only [List.mem_append] at hw
    rcases hw with h1 | h2
    · left
      split at h1
      · rw [List.mem_singleton] at h1
        rw [h1]
      · simp at h1
    · right
      split at h2
      · rw [List.mem_singleton] at h2
        rw [h2]
      · simp at h2

/-- C10: `review` never emits a `format-error` warning: every
`CITATION_PATTERN` match with a page group necessarily ends with the page
digits followed by a closing bracket, so the emission branch of
`_check_format` is dead code. -/
theorem c10_no_format_error (text : List Char) :
    (review text).filter (fun w => w.code == "format-error") = [] := by
  rw [review, List.filter_append, List.filter_append]
  have h1 : (checkPresence text).filter (fun w => w.code == "format-error")
      = [] := by
    rw [List.filter_eq_nil_iff]
    intro w hw
    rw [checkPresence_code text w hw]
    decide
  have h2 : (checkSequence text).filter (fun w => w.code == "format-error")
      = [] := by
    rw [List.filter_eq_nil_iff]
    intro w hw
    rcases checkSequence_code text w hw with hc | hc <;> rw [hc] <;> decide
  rw [h1, h2, checkFormat_eq_nil]
  rfl

theorem foldr_max_range' (len s : Nat) :
    (List.range' s len).foldr max 0 = if len = 0 then 0 else s + len - 1 := by
  induction len generalizing s with
  | zero => rfl
  | succ n ih =>
      rw [List.range'_succ, List.foldr_cons, ih]
      by_cases hn : n = 0
      · subst hn
        simp
      · rw [if_neg hn, if_neg (Nat.succ_ne_zero n)]
        have h1 : s + 1 + n - 1 = s + n := by omega
        rw [h1]
        exact Nat.max_eq_right (by omega)

theorem getLastD_range' (len s d : Nat) (h : 0 < len) :
    (List.range' s len).getLastD d = s + len - 1 := by
  induction len generalizing s d with
  | zero => omega
  | succ n ih =>
      rw [List.range'_succ]
      by_cases hn : n = 0
      · subst hn
        simp
      · rw [List.getLastD_cons, ih _ _ (Nat.pos_of_ne_zero hn)]
        omega

theorem eq_range'_last_iff_max (l : List Nat) (h : l ≠ []) :
    l = List.range' 1 (l.getLastD 0) ↔ l = List.range' 1 (l.foldr max 0) := by
  constructor
  · intro h1
    have hn : l.getLastD 0 ≠ 0 := by
      intro h0
      rw [h0] at h1
      exact h (by simpa using h1)
    have hfold : l.foldr max 0 = l.getLastD 0 := by
      conv_lhs => rw [h1]
      rw [foldr_max_range', if_neg hn]
      omega
    rw [hfold]
    exact h1
  · intro h1
    have hm : l.foldr max 0 ≠ 0 := by
      intro h0
      rw [h0] at h1
      exact h (by simpa using h1)
    have hlast : l.getLastD 0 = l.foldr max 0 := by
      conv_lhs => rw [h1]
      rw [getLastD_range' _ _ _ (Nat.pos_of_ne_zero hm)]
      omega
    rw [hlast]
    exact h1

/-- C7: for every reviewed text containing at least one citation label,
`review` emits exactly one `sequence-error` warning, carrying the full list
of citation numbers in document order as its context, if and only if that
list differs from the contiguous sequence `1..max(found)` (the code
compares against `1..numbers[-1]`, which is equivalent). -/
theorem c7_sequence_warning (text : List Char)
    (h : citationNumbers text ≠ []) :
    (review text).filter (fun w => w.code == "sequence-error")
      = (if citationNumbers text
            = List.range' 1 ((citationNumbers text).foldr max 0) then
          ([] : List Warning)
        else
          [⟨"sequence-error", seqMsg,
            some (pyIntListRepr (citationNumbers text))⟩]) := by
  rw [review, List.filter_append, List.filter_append]
  have h1 : (checkPresence text).filter (fun w => w.code == "sequence-error")
      = [] := by
    rw [List.filter_eq_nil_iff]
    intro w hw
    rw [checkPresence_code text w hw]
    decide
  have h3 : (checkFormat text).filter (fun w => w.code == "sequence-error")
      = [] := by
    rw [checkFormat_eq_nil]
    rfl
  rw [h1, h3, List.append_nil, List.nil_append]
  rw [checkSequence]
  have hne : (citationNumbers text).isEmpty = false := by
    rcases hcn : citationNumbers text with _ | ⟨a, t⟩
    · exact absurd hcn h
    · rfl
  rw [hne]
  simp only [Bool.false_eq_true, if_false, List.filter_append]
  have hdup : (if (citationNumbers text).dedup.length
        ≠ (citationNumbers text).length then
      [(⟨"duplicate-reference", dupMsg,
        some (pyIntListRepr (citationNumbers text))⟩ : Warning)]
    else []).filter (fun w => w.code == "sequence-error") = [] := by
    split
    · rfl
    · rfl
  rw [hdup, List.append_nil]
  by_cases hA : citationNumbers text
      = List.range' 1 ((citationNumbers text).getLastD 0)
  · rw [if_neg (by simpa using hA)]
    rw [if_pos ((eq_range'_last_iff_max _ h).mp hA)]
    rfl
  · rw [if_pos (by simpa using hA)]
    rw [if_neg (fun hx => hA ((eq_range'_last_iff_max _ h).mpr hx))]
    rfl

theorem c7_sequence_warning_witness :
    citationNumbers ("a [1] b [3].".toList) ≠ [] ∧
    (review ("a [1] b [3].".toList)).filter
        (fun w => w.code == "sequence-error")
      = [⟨"sequence-error", seqMsg, some "[1, 3]"⟩] := by
  refine ⟨by decide, ?_⟩
  rw [c7_sequence_warning ("a [1] b [3].".toList) (by decide)]
  decide

/-- C6 counterexample: `review("KI wirkt transformativ. [1]\n")` yields one
`missing-citation` warning, not zero as the claim states (the
`sequence-error` count is zero as claimed). -/
theorem c6_counterexample :
    ((review ("KI wirkt transformativ. [1]\n".toList)).filter
        (fun w => w.code == "missing-citation")).length = 1 ∧
    ((review ("KI wirkt transformativ. [1]\n".toList)).filter
        (fun w => w.code == "sequence-error")).length = 0 := by
  decide

/-- C6 (amended): `review("KI wirkt transformativ. [1]\n")` produces
exactly one `missing-citation` warning — for the fragment
"KI wirkt transformativ.", since the split on `./!/?` followed by
whitespace places the trailing citation label in a fragment of its own —
and zero `sequence-error` warnings: the full warning list is that single
warning. -/
theorem c6_review_scenario :
    review ("KI wirkt transformativ. [1]\n".toList)
      = [⟨"missing-citation", "Satz ohne IEEE-Zitation gefunden.",
          some "KI wirkt transformativ."⟩] := by
  decide

/-! ### Chunker (src/ba_agent/index.py, IndexBuilder.chunk_text)

The per-record while loop of `chunk_text` (index.py lines 116-136) is
embedded with explicit fuel; `max(0, end - overlap)` is truncated `Nat`
subtraction. A fuel of `text.length` suffices under the configured bounds
because every iteration strictly advances the window start. -/

/-- The window end computed by one loop iteration: `end = min(start +
max_size, len)`, extended to `min(len, start + min_size)` when the slice is
shorter than `min_size` and not at the end of the text. -/
def chunkEnd (text : List Char) (minS maxS : Nat) (start : Nat) : Nat :=
  if min (start + maxS) text.length - start < minS
      ∧ min (start + maxS) text.length ≠ text.length then
    min text.length (start + minS)
  else min (start + maxS) text.length

/-- Fuel-indexed embedding of the chunking while loop for one record. -/
def chunkLoop (text : List Char) (minS maxS ov : Nat) :
    Nat → Nat → List (List Char)
  | 0, _ => []
  | fuel + 1, start =>
    if start < text.length then
      ((text.drop start).take (chunkEnd text minS maxS start - start)) ::
        (if chunkEnd text minS maxS start = text.length then []
         else chunkLoop text minS maxS ov fuel
            (chunkEnd text minS maxS start - ov))
    else []

/-- The chunk texts `chunk_text` produces for a single page record. -/
def chunk_record (text : List Char) (minS maxS ov : Nat) : List (List Char) :=
  chunkLoop text minS maxS ov text.length 0

/-- Reassembly of chunk texts: the first chunk followed by every later
chunk with its overlap-duplicated prefix of `ov` characters removed. -/
def reassemble (ov : Nat) : List (List Char) → List Char
  | [] => []
  | c :: rest => c ++ (rest.map (List.drop ov)).flatten

theorem chunkLoop_succ (text : List Char) (minS maxS ov fuel start : Nat) :
    chunkLoop text minS maxS ov (fuel + 1) start
      = if start < text.length then
          ((text.drop start).take (chunkEnd text minS maxS start - start)) ::
            (if chunkEnd text minS maxS start = text.length then []
             else chunkLoop text minS maxS ov fuel
                (chunkEnd text minS maxS start - ov))
        else [] := rfl

theorem chunkEnd_eq (text : List Char) (minS maxS start : Nat)
    (h2 : minS ≤ maxS) :
    chunkEnd text minS maxS start = min (start + maxS) text.length := by
  rw [chunkEnd]
  rcases Nat.le_total (start + maxS) text.length with hle | hge
  · rw [Nat.min_eq_left hle]
    by_cases he : start + maxS = text.length
    · simp [he]
    · have : ¬(start + maxS - start < minS ∧ start + maxS ≠ text.length) := by
        intro hcon
        omega
      rw [if_neg this]
  · rw [Nat.min_eq_right hge]
    simp

theorem drop_ov_take (l : List Char) (ov k : Nat) (h : ov ≤ k) :
    (l.take k).drop ov = (l.drop ov).take (k - ov) := by
  have harith : ov + (k - ov) = k := by omega
  rw [List.take_drop, harith]

theorem chunkLoop_drop_join (text : List Char) (minS maxS ov : Nat)
    (_h1 : 0 < minS) (h2 : minS ≤ maxS) (h3 : ov < minS) :
    ∀ fuel start, text.length - start ≤ fuel → start < text.length →
      start + ov ≤ text.length →
      ((chunkLoop text minS maxS ov fuel start).map (List.drop ov)).flatten
        = text.drop (start + ov) := by
  intro fuel
  induction fuel with
  | zero =>
      intro start hfuel hstart _
      omega
  | succ fuel ih =>
      intro start hfuel hstart hov
      rw [chunkLoop_succ, if_pos hstart, chunkEnd_eq _ _ _ _ h2]
      have hove : start + ov ≤ min (start + maxS) text.length := by
        have hmm : ov ≤ maxS := by omega
        omega
      have hdropc :
          ((text.drop start).take (min (start + maxS) text.length - start)).drop
              ov
            = (text.drop (start + ov)).take
                (min (start + maxS) text.length - start - ov) := by
        rw [drop_ov_take _ _ _ (by omega), List.drop_drop]
      by_cases he : min (start + maxS) text.length = text.length
      · rw [if_pos he]
        simp only [List.map_cons, List.map_nil, List.flatten_cons, List.flatten_nil,
          List.append_nil]
        rw [hdropc, he]
        apply List.take_of_length_le
        rw [List.length_drop]
        omega
      · rw [if_neg he]
        have hlt : min (start + maxS) text.length < text.length := by
          rcases Nat.lt_or_ge (min (start + maxS) text.length) text.length
            with h | h
          · exact h
          · exact absurd (Nat.le_antisymm (Nat.min_le_right _ _) h) he
        have hmaxe : min (start + maxS) text.length = start + maxS := by
          rcases Nat.le_total (start + maxS) text.length with h | h
          · exact Nat.min_eq_left h
          · exact absurd (Nat.min_eq_right h) he
        have hstep : start + 1 ≤ min (start + maxS) text.length - ov := by
          omega
        have hih := ih (min (start + maxS) text.length - ov)
          (by omega) (by omega) (by omega)
        have harith : min (start + maxS) text.length - ov + ov
            = min (start + maxS) text.length := by omega
        rw [harith] at hih
        simp only [List.map_cons, List.flatten_cons]
        rw [hdropc, hih]
        have hdr : text.drop (min (start + maxS) text.length)
            = (text.drop (start + ov)).drop
                (min (start + maxS) text.length - start - ov) := by
          rw [List.drop_drop]
          congr 1
          omega
        rw [hdr, List.take_append_drop]

/-- C5: for every page record and every chunking configuration with
`0 < min_size ≤ max_size` and `0 ≤ overlap < min_size`, concatenating the
chunk texts produced for that record, after removing the
overlap-duplicated prefix of each chunk after the first, reconstructs the
record's original text exactly; and a record with empty text produces zero
chunks. -/
theorem c5_chunk_roundtrip (text : List Char) (minS maxS ov : Nat)
    (h1 : 0 < minS) (h2 : minS ≤ maxS) (h3 : ov < minS) :
    reassemble ov (chunk_record text minS maxS ov) = text ∧
    chunk_record [] minS maxS ov = [] := by
  refine ⟨?_, rfl⟩
  rcases htext : text with _ | ⟨c, t⟩
  · rfl
  · rw [← htext]
    have hlen : 0 < text.length := by
      rw [htext]
      exact Nat.succ_pos _
    rcases hfuel : text.length with _ | fuel
    · omega
    · rw [chunk_record, hfuel, chunkLoop_succ, if_pos (by omega),
        chunkEnd_eq _ _ _ _ h2]
      by_cases he : min (0 + maxS) text.length = text.length
      · rw [if_pos he]
        rw [reassemble]
        simp only [List.map_nil, List.flatten_nil, List.append_nil]
        rw [he, List.drop_zero, Nat.sub_zero]
        exact List.take_of_length_le (by omega)
      · rw [if_neg he]
        rw [reassemble]
        have hlt : min (0 + maxS) text.length < text.length := by
          rcases Nat.lt_or_ge (min (0 + maxS) text.length) text.length
            with h | h
          · exact h
          · exact absurd (Nat.le_antisymm (Nat.min_le_right _ _) h) he
        have hmaxe : min (0 + maxS) text.length = maxS := by
          rcases Nat.le_total (0 + maxS) text.length with h | h
          · rw [Nat.min_eq_left h]
            omega
          · exact absurd (Nat.min_eq_right h) he
        have hj := chunkLoop_drop_join text minS maxS ov h1 h2 h3 fuel
          (min (0 + maxS) text.length - ov) (by omega) (by omega) (by omega)
        have harith : min (0 + maxS) text.length - ov + ov
            = min (0 + maxS) text.length := by omega
        rw [harith] at hj
        rw [hj, List.drop_zero, Nat.sub_zero]
        exact List.take_append_drop _ _

theorem c5_chunk_roundtrip_witness :
    (0 < 2 ∧ 2 ≤ 3 ∧ 1 < 2) ∧
    (reassemble 1 (chunk_record ("abcdef".toList) 2 3 1) = "abcdef".toList ∧
     chunk_record ([] : List Char) 2 3 1 = []) :=
  ⟨by decide,
    c5_chunk_roundtrip ("abcdef".toList) 2 3 1 (by decide) (by decide)
      (by decide)⟩

/-! ### Fallback encoder (src/ba_agent/index.py, EmbeddingBackend._encode_fallback)

Texts are modelled as their UTF-8 byte lists. The numpy generator
`np.random.default_rng(seed)` is external library code; only what the
claim depends on is modelled: it is a deterministic stream of draws that
is a function of the explicit seed alone, so the development is
parametrised by an arbitrary stream `rngStream seed i` giving the i-th
draw. The final per-row L2 normalisation (floating-point `sqrt` and
division, a deterministic function of its input row) is likewise an
arbitrary parameter `normF`. -/

/-- Adds 1.0 to bucket `i` of a histogram vector. -/
def addBucket (v : List ℚ) (i : Nat) : List ℚ := v.set i (v.getD i 0 + 1)

/-- The byte histogram of one text: starting from a zero vector of length
`dim`, the byte at position `i` increments bucket `(i + byte) % dim`
(index.py lines 64-68). -/
def histVec (dim : Nat) (bytes : List Nat) : List ℚ :=
  (bytes.enum).foldl (fun v p => addBucket v ((p.1 + p.2) % dim))
    (List.replicate dim 0)

/-- Sequentially encodes the texts of one call while threading the current
draw position of the generator: a text whose histogram sums to zero is
filled with `dim` fresh draws (index.py lines 69-70). -/
def encodeRawGo (rngStream : Nat → Nat → ℚ) (dim seed : Nat) :
    List (List Nat) → Nat → List (List ℚ)
  | [], _ => []
  | t :: ts, pos =>
    if (histVec dim t).sum = 0 then
      ((List.range dim).map (fun j => rngStream seed (pos + j)))
        :: encodeRawGo rngStream dim seed ts (pos + dim)
    else histVec dim t :: encodeRawGo rngStream dim seed ts pos

/-- Embedding of `_encode_fallback` (index.py lines 62-73): the generator
is constructed freshly from the explicit seed inside the call, so each
call starts at draw position 0 and shares no generator state with any
other call; `normF` is the final per-row normalisation. -/
def encode_fallback (rngStream : Nat → Nat → ℚ) (normF : List ℚ → List ℚ)
    (dim seed : Nat) (texts : List (List Nat)) : List (List ℚ) :=
  (encodeRawGo rngStream dim seed texts 0).map normF

/-- A session of `encode` calls on one fallback backend: each call runs
`_encode_fallback` with its own freshly seeded generator. -/
def encodeSession (rngStream : Nat → Nat → ℚ) (normF : List ℚ → List ℚ)
    (dim seed : Nat) (batches : List (List (List Nat))) :
    List (List (List ℚ)) :=
  batches.map (encode_fallback rngStream normF dim seed)

/-- C4: for every fixed seed and every session of fallback `encode` calls,
any two calls on identical text sequences produce identical vector
matrices, whatever the generator stream and normalisation are: the
pseudo-random fill is drawn from a generator freshly constructed from the
explicit seed on each call, with no mutable generator state shared across
calls. -/
theorem c4_fallback_deterministic (rngStream : Nat → Nat → ℚ)
    (normF : List ℚ → List ℚ) (dim seed : Nat)
    (batches : List (List (List Nat))) (i j : Nat)
    (hi : i < batches.length) (hj : j < batches.length)
    (heq : batches[i] = batches[j]) :
    (encodeSession rngStream normF dim seed batches).get
        ⟨i, by simpa [encodeSession] using hi⟩
      = (encodeSession rngStream normF dim seed batches).get
        ⟨j, by simpa [encodeSession] using hj⟩ := by
  simp only [encodeSession, List.get_eq_getElem, List.getElem_map]
  rw [heq]

theorem c4_fallback_deterministic_witness :
    (0 < ([[[65]], [[65]]] : List (List (List Nat))).length ∧
     1 < ([[[65]], [[65]]] : List (List (List Nat))).length ∧
     ([[[65]], [[65]]] : List (List (List Nat)))[0] = [[65]]) ∧
    (encodeSession (fun _ _ => 0) id 4 42 [[[65]], [[65]]]).get ⟨0, by decide⟩
      = (encodeSession (fun _ _ => 0) id 4 42 [[[65]], [[65]]]).get
          ⟨1, by decide⟩ :=
  ⟨⟨by decide, by decide, by decide⟩,
    c4_fallback_deterministic (fun _ _ => 0) id 4 42 [[[65]], [[65]]] 0 1
      (by decide) (by decide) (by decide)⟩

/-! ### Brute-force vector search (src/ba_agent/query.py, QueryEngine._search)

The fallback branch (query.py lines 46-50) computes all inner products and
takes `np.argsort(scores)[::-1][:k]`. Scores are modelled over `ℚ`.
`np.argsort` with the default kind sorts ascending; on arrays of at most
16 elements it runs its insertion sort, which is stable, so there the
result is exactly a lexicographic sort of (index, score) pairs by score,
then index. Above that cutoff numpy switches to an unstable introsort
whose tie order is unspecified, so the tie-break theorem below is
restricted by hypothesis to indexes of at most 16 chunk vectors, the
regime in which this model is faithful. -/

/-- Exact inner product of two vectors. -/
def dotQ : List ℚ → List ℚ → ℚ
  | a :: as, b :: bs => a * b + dotQ as bs
  | _, _ => 0

/-- The comparison underlying the stable ascending argsort of (index,
score) pairs: by score, ties by original index. -/
def scoreLE (a b : Nat × ℚ) : Bool :=
  decide (a.2 < b.2 ∨ (a.2 = b.2 ∧ a.1 ≤ b.1))

/-- Model of `np.argsort(scores)` in the regime `scores.length ≤ 16`,
where numpy's default sort is its stable insertion sort: the index list
sorted ascending by score, stable on ties. For longer arrays numpy's
unstable introsort gives some ascending order with unspecified tie order,
which this model does not claim to capture. -/
def argsortAsc (scores : List ℚ) : List Nat :=
  ((scores.enum).mergeSort scoreLE).map Prod.fst

/-- Embedding of the fallback branch of `QueryEngine._search` plus the
result pairing (query.py lines 46-63): positions
`np.argsort(scores)[::-1][:k]`, each paired with its score. -/
def searchFallback (embeddings : List (List ℚ)) (query : List ℚ) (k : Nat) :
    List (Nat × ℚ) :=
  ((argsortAsc (embeddings.map (fun e => dotQ e query))).reverse.take k).map
    (fun p => (p, (embeddings.map (fun e => dotQ e query)).getD p 0))

theorem scoreLE_trans (a b c : Nat × ℚ) (h1 : scoreLE a b) (h2 : scoreLE b c) :
    scoreLE a c := by
  simp only [scoreLE, decide_eq_true_eq] at h1 h2 ⊢
  rcases h1 with h1 | ⟨h1e, h1i⟩ <;> rcases h2 with h2 | ⟨h2e, h2i⟩
  · exact Or.inl (lt_trans h1 h2)
  · exact Or.inl (lt_of_lt_of_eq h1 h2e)
  · exact Or.inl (lt_of_eq_of_lt h1e h2)
  · exact Or.inr ⟨h1e.trans h2e, Nat.le_trans h1i h2i⟩

theorem scoreLE_total (a b : Nat × ℚ) : scoreLE a b || scoreLE b a := by
  simp only [scoreLE, Bool.or_eq_true, decide_eq_true_eq]
  rcases lt_trichotomy a.2 b.2 with h | h | h
  · exact Or.inl (Or.inl h)
  · rcases Nat.le_total a.1 b.1 with hi | hi
    · exact Or.inl (Or.inr ⟨h, hi⟩)
    · exact Or.inr (Or.inr ⟨h.symm, hi⟩)
  · exact Or.inr (Or.inl h)

theorem searchFallback_eq_pairs (embeddings : List (List ℚ))
    (query : List ℚ) (k : Nat) :
    searchFallback embeddings query k
      = (((embeddings.map (fun e => dotQ e query)).enum.mergeSort
            scoreLE).reverse.take k) := by
  rw [searchFallback, argsortAsc]
  rw [← List.map_reverse, ← List.map_take, List.map_map]
  have hmem : ∀ x ∈ (((embeddings.map (fun e => dotQ e query)).enum.mergeSort
      scoreLE).reverse.take k),
      ((fun p => (p, (embeddings.map (fun e => dotQ e query)).getD p 0))
          ∘ Prod.fst) x = id x := by
    intro x hx
    have hx1 : x ∈ ((embeddings.map (fun e => dotQ e query)).enum.mergeSort
        scoreLE).reverse := (List.take_sublist _ _).subset hx
    have hx2 : x ∈ (embeddings.map (fun e => dotQ e query)).enum :=
      (List.mergeSort_perm _ scoreLE).mem_iff.mp (List.mem_reverse.mp hx1)
    have hx3 : (embeddings.map (fun e => dotQ e query))[x.1]? = some x.2 :=
      List.mem_enum_iff_getElem?.mp hx2
    have hx4 : (embeddings.map (fun e => dotQ e query)).getD x.1 0 = x.2 := by
      rw [List.getD_eq_getElem?_getD, hx3]
      rfl
    simp only [Function.comp_apply, hx4, id_eq]
  rw [List.map_congr_left hmem, List.map_id]

/-- C3 (amended): on the brute-force fallback implementation, for an
index of at most 16 chunk vectors — the regime in which numpy's default
argsort is its stable insertion sort, so the embedding is faithful —
search returns at most `k` (position, score) pairs, ordered by descending
inner product with equal scores tied by original chunk position
descending (the `[::-1]` reversal of a stable ascending argsort puts the
higher position first), and each returned position is a valid chunk
position carrying its exact score; the result is a function of the index
and query alone. Above the cutoff numpy's tie order is unspecified, so no
universal tie-break property holds there. -/
theorem c3_search_order (embeddings : List (List ℚ)) (query : List ℚ)
    (k : Nat) (_hsize : embeddings.length ≤ 16) :
    (searchFallback embeddings query k).length ≤ k ∧
    (searchFallback embeddings query k).Pairwise
      (fun a b => b.2 < a.2 ∨ (b.2 = a.2 ∧ b.1 < a.1)) ∧
    ∀ p ∈ searchFallback embeddings query k,
      p.1 < embeddings.length ∧ p.2 = dotQ (embeddings.getD p.1 []) query := by
  have hfinal := searchFallback_eq_pairs embeddings query k
  refine ⟨?_, ?_, ?_⟩
  · rw [hfinal, List.length_take]
    exact Nat.min_le_left _ _
  · have hsorted := List.sorted_mergeSort scoreLE_trans
      scoreLE_total ((embeddings.map (fun e => dotQ e query)).enum)
    have hne : ((embeddings.map (fun e => dotQ e query)).enum).Pairwise
        (fun a b => a.1 ≠ b.1) :=
      List.pairwise_map.mp (List.nodup_enum_map_fst _)
    have hneS : (((embeddings.map (fun e => dotQ e query)).enum).mergeSort
        scoreLE).Pairwise (fun a b => a.1 ≠ b.1) :=
      ((List.mergeSort_perm _ scoreLE).pairwise_iff
        (fun hxy => Ne.symm hxy)).mpr hne
    have hstrict : (((embeddings.map (fun e => dotQ e query)).enum).mergeSort
        scoreLE).Pairwise (fun a b => a.2 < b.2 ∨ (a.2 = b.2 ∧ a.1 < b.1)) := by
      refine (hsorted.and hneS).imp ?_
      intro a b hab
      obtain ⟨hle, hne1⟩ := hab
      have hle2 : a.2 < b.2 ∨ (a.2 = b.2 ∧ a.1 ≤ b.1) := by
        simpa [scoreLE, decide_eq_true_eq] using hle
      rcases hle2 with h | ⟨he, hi⟩
      · exact Or.inl h
      · exact Or.inr ⟨he, Nat.lt_of_le_of_ne hi hne1⟩
    have hrev := List.pairwise_reverse.mpr hstrict
    rw [hfinal]
    exact List.Pairwise.sublist (List.take_sublist _ _) hrev
  · intro p hp
    rw [hfinal] at hp
    have hp1 : p ∈ ((embeddings.map (fun e => dotQ e query)).enum.mergeSort
        scoreLE).reverse := (List.take_sublist _ _).subset hp
    have hp2 : p ∈ (embeddings.map (fun e => dotQ e query)).enum :=
      (List.mergeSort_perm _ scoreLE).mem_iff.mp (List.mem_reverse.mp hp1)
    have hlt : p.1 < (embeddings.map (fun e => dotQ e query)).length :=
      List.fst_lt_of_mem_enum hp2
    have hlt2 : p.1 < embeddings.length := by
      simpa using hlt
    have hval : (embeddings.map (fun e => dotQ e query))[p.1]? = some p.2 :=
      List.mem_enum_iff_getElem?.mp hp2
    refine ⟨hlt2, ?_⟩
    have hget : (embeddings.map (fun e => dotQ e query))[p.1] = p.2 := by
      obtain ⟨h, hv⟩ := List.getElem?_eq_some_iff.mp hval
      exact hv
    rw [← hget, List.getElem_map, List.getD_eq_getElem _ _ hlt2]

theorem c3_counterexample :
    searchFallback [[(1 : ℚ)], [1]] [1] 2 = [(1, 1), (0, 1)] ∧
    searchFallback [[(1 : ℚ)], [1]] [1] 2 ≠ [(0, 1), (1, 1)] := by
  have hval : searchFallback [[(1 : ℚ)], [1]] [1] 2 = [(1, 1), (0, 1)] := by
    rw [searchFallback, argsortAsc]
    norm_num [dotQ, List.enum, List.enumFrom, List.mergeSort, List.splitInTwo,
      List.merge, scoreLE, List.getElem_cons_succ, List.getElem_cons_zero]
    decide
  refine ⟨hval, ?_⟩
  rw [hval]
  intro h
  simp at h

theorem c3_search_order_witness :
    ([[(1 : ℚ)], [2]] : List (List ℚ)).length ≤ 16 ∧
    ((searchFallback [[(1 : ℚ)], [2]] [1] 1).length ≤ 1 ∧
     (searchFallback [[(1 : ℚ)], [2]] [1] 1).Pairwise
       (fun a b => b.2 < a.2 ∨ (b.2 = a.2 ∧ b.1 < a.1)) ∧
     ∀ p ∈ searchFallback [[(1 : ℚ)], [2]] [1] 1,
       p.1 < ([[(1 : ℚ)], [2]] : List (List ℚ)).length ∧
       p.2 = dotQ (([[(1 : ℚ)], [2]] : List (List ℚ)).getD p.1 []) [1]) :=
  ⟨by decide, c3_search_order [[(1 : ℚ)], [2]] [1] 1 (by decide)⟩
